import Mathlib

/-!
# Doable: the Dobble deck generator of `main.go`

A shallow embedding of the computational core of `main.go`:
`generateDobbleByY`, `countCommonSymbols`, `filterValidCards`,
`validateCards`, the `DobbleGenerator` facade, `validateInput` and the choice
of the displayed deck in `main`.

Go `int` values are modelled as `Int`.  Every symbol the generator computes
lies between `1` and `n*n + n + 1` and every intermediate product is below
`n*n`, while the deck itself holds `n*n + n + 1` slices; a deck that fits in
memory therefore never reaches the 64-bit wrap-around, and the arithmetic is
left unbounded.  Go slices are modelled as `List`; a bounded counting loop
`for i := a; i < b; i++` is a fold (or search) over the list of its index
values, and the unbounded `for { ... }` of `filterValidCards` is a recursion
with a termination proof.
-/

namespace Doable

/-! ## Definitions -/

/-- The facade struct `DobbleGenerator` of `main.go`. -/
structure DobbleGenerator where
  symbolsPerCard : Int
  cards : List (List Int)

/-- `NewDobbleGenerator`: the zero value of the struct. -/
def NewDobbleGenerator : DobbleGenerator :=
  { symbolsPerCard := 0, cards := [] }

/-- `generateDobbleByY`: the three construction loops, each `append` being
a step of a fold over the loop's index values.  Go's `%` truncates towards
zero, which is `Int.tmod`. -/
def generateDobbleByY (y : Int) : List (List Int) :=
  let n := y - 1
  let cards : List (List Int) := []
  -- 1. first card
  let firstCard : List Int :=
    (List.range (n + 1).toNat).foldl (fun card (i : Nat) => card ++ [(i : Int) + 1]) []
  let cards := cards ++ [firstCard]
  -- 2. next n cards
  let cards := (List.range n.toNat).foldl (fun cards (i : Nat) =>
    let card : List Int :=
      (List.range n.toNat).foldl
        (fun card (j : Nat) => card ++ [(n + 1) + (i : Int) * n + (j : Int) + 1]) [1]
    cards ++ [card]) cards
  -- 3. remaining n^2 cards
  let cards := (List.range n.toNat).foldl (fun cards (i : Nat) =>
    (List.range n.toNat).foldl (fun cards (j : Nat) =>
      let card : List Int :=
        (List.range n.toNat).foldl
          (fun card (k : Nat) =>
            card ++ [(n + 1) + (k : Int) * n + Int.tmod ((i : Int) * (k : Int) + (j : Int)) n + 1])
          [(i : Int) + 2]
      cards ++ [card]) cards) cards
  cards

/-- `DobbleGenerator.Generate`: stores the parameter and the deck in the
receiver and returns the deck; the updated receiver is the first component. -/
def DobbleGenerator.Generate (_dg : DobbleGenerator) (symbolsPerCard : Int) :
    DobbleGenerator × List (List Int) :=
  let dg : DobbleGenerator :=
    { symbolsPerCard := symbolsPerCard, cards := generateDobbleByY symbolsPerCard }
  (dg, dg.cards)

/-- `DobbleGenerator.GetTotalSymbols`. -/
def DobbleGenerator.GetTotalSymbols (dg : DobbleGenerator) : Int :=
  let n := dg.symbolsPerCard - 1
  n * n + n + 1

/-- `countCommonSymbols`: the nested `range` loops incrementing `count`. -/
def countCommonSymbols (card1 card2 : List Int) : Nat :=
  card1.foldl (fun count s1 =>
    card2.foldl (fun count s2 => if s1 = s2 then count + 1 else count) count) 0

/-- The innermost loop of `filterValidCards`: `isValid` stays true iff the
candidate has exactly one common symbol with every card accepted so far. -/
def isValidCandidate (candidate : List Int) (validCards : List (List Int)) : Bool :=
  validCards.all (fun validCard => countCommonSymbols candidate validCard == 1)

/-- One pass of the inner `for i := 1; i < len(cards); i++` loop of
`filterValidCards`: the index at which the pass breaks out, i.e. the first
`i` that is not `used` and whose card is a valid candidate; `none` when the
pass ends with `added == false`.  Indexing is in range in the program, so
the defaults of `getD` are never taken. -/
def findCandidate (cards validCards : List (List Int)) (used : List Bool) : Option Nat :=
  (List.range' 1 (cards.length - 1)).find? (fun i =>
    !(used.getD i true) && isValidCandidate (cards.getD i []) validCards)

/-- The outer `for { ... }` loop of `filterValidCards`: a pass that accepts
a card appends it, marks it used and starts over; the loop is left by a pass
that accepts none. -/
def filterLoop (cards validCards : List (List Int)) (used : List Bool) : List (List Int) :=
  match _h : findCandidate cards validCards used with
  | some i => filterLoop cards (validCards ++ [cards.getD i []]) (used.set i true)
  | none => validCards
termination_by used.count false
decreasing_by
  -- an accepted index was unused, and marking it lowers the number of unused slots
  have hp := List.find?_some _h
  simp only [Bool.and_eq_true, Bool.not_eq_true'] at hp
  have key : ∀ (u : List Bool) (k : Nat), u.getD k true = false →
      (u.set k true).count false < u.count false := by
    intro u
    induction u with
    | nil => intro k hk; simp at hk
    | cons b bs ih =>
      intro k hk
      cases k with
      | zero =>
        simp at hk
        subst hk
        simp
      | succ k =>
        have := ih k (by simpa using hk)
        simp [List.count_cons]
        omega
  exact key used i hp.1

/-- `filterValidCards`. -/
def filterValidCards (cards : List (List Int)) : List (List Int) :=
  if cards.length = 0 then cards
  else
    filterLoop cards ([] ++ [cards.getD 0 []]) ((List.replicate cards.length false).set 0 true)

/-- `validateCards`: the double loop over `i < j`; the early `return false`
makes the result the conjunction of all the pair tests. -/
def validateCards (cards : List (List Int)) : Bool :=
  (List.range cards.length).all (fun i =>
    (List.range' (i + 1) (cards.length - (i + 1))).all (fun j =>
      countCommonSymbols (cards.getD i []) (cards.getD j []) == 1))

/-- The constant `MinSymbolsPerCard`. -/
def MinSymbolsPerCard : Int := 2

/-- The constant `MaxSymbolsPerCard`. -/
def MaxSymbolsPerCard : Int := 15

/-- The four errors of `validateInput`, in the order of its checks:
"please enter the number of images per card", "please enter a valid number",
"the number of images per card must be greater than 1", and "the number of
images per card is limited to 15 for performance". -/
inductive InputError where
  | missingInput
  | invalidNumber
  | notGreaterThanOne
  | aboveLimit
  deriving DecidableEq

/-- `validateInput`.  The library function `strconv.Atoi` is the parameter
`atoi`: `some v` when it returns `v` with a nil error, `none` when it returns
an error.  The result pairs the returned integer with the returned error
(`none` for nil). -/
def validateInput (atoi : String → Option Int) (input : String) : Int × Option InputError :=
  if input = "" then (0, some InputError.missingInput)
  else
    match atoi input with
    | none => (0, some InputError.invalidNumber)
    | some value =>
      if value ≤ 1 then (0, some InputError.notGreaterThanOne)
      else if value > MaxSymbolsPerCard then (0, some InputError.aboveLimit)
      else (value, none)

/-- What `strconv.Atoi` of the Go library accepts: an optional sign `+` or
`-`, then one or more decimal digits, the value fitting a 64-bit `int`;
everything else is an error. -/
def Atoi (s : String) : Option Int :=
  let signed : Bool × List Char :=
    match s.toList with
    | '-' :: r => (true, r)
    | '+' :: r => (false, r)
    | r => (false, r)
  let digits := signed.2
  if digits.isEmpty || !digits.all Char.isDigit then none
  else
    let magnitude : Nat := digits.foldl (fun acc c => acc * 10 + (c.toNat - 48)) 0
    let value : Int := if signed.1 then -(magnitude : Int) else (magnitude : Int)
    if -(2 : Int) ^ 63 ≤ value ∧ value < (2 : Int) ^ 63 then some value else none

/-- The deck the button handler of `main` shows: `displayCards := cards`,
replaced by `filterValidCards(cards)` when `validateCards(cards)` is false. -/
def displayCards (cards : List (List Int)) : List (List Int) :=
  let allValid := validateCards cards
  if !allValid then filterValidCards cards else cards

/-! ## Auxiliary definitions for the proofs -/

/-- The base card built by the first loop. -/
def firstCard (n : Int) : List Int :=
  (List.range (n + 1).toNat).map (fun (i : Nat) => (i : Int) + 1)

/-- The card built by iteration `i` of the second loop. -/
def pencilCard (n : Int) (i : Nat) : List Int :=
  1 :: (List.range n.toNat).map (fun (j : Nat) => (n + 1) + (i : Int) * n + (j : Int) + 1)

/-- The card built by iteration `(i, j)` of the third loop nest. -/
def gridCard (n : Int) (i j : Nat) : List Int :=
  ((i : Int) + 2) :: (List.range n.toNat).map
    (fun (k : Nat) => (n + 1) + (k : Int) * n + Int.tmod ((i : Int) * (k : Int) + (j : Int)) n + 1)

/-- The relation the validator tests on a pair of cards. -/
def OneCommon (a b : List Int) : Prop := countCommonSymbols a b = 1

/-- The values of the entry field that the initial text of `resultLabel` in
`main` lists as supported ("Supported values: 2, 3, 4, 5, 6, 8, 9..."). -/
def advertisedSupportedValues : List Int := [2, 3, 4, 5, 6, 8, 9]

/-- A single left-to-right scan: starting from the accepted list `acc`, each
card of the remaining list is appended iff it has exactly one common symbol
with every card accepted so far. -/
def scanOnce (acc : List (List Int)) : List (List Int) → List (List Int)
  | [] => acc
  | c :: rest =>
    if isValidCandidate c acc then scanOnce (acc ++ [c]) rest else scanOnce acc rest

/-- The single-pass filter: the first card is accepted, the others are
scanned once in order. -/
def filterSinglePass : List (List Int) → List (List Int)
  | [] => []
  | c :: rest => scanOnce [c] rest

/-- The single left-to-right pass in the words of the refinement claim: the
accepted list starts as `[deck[0]]`, the cards `1..len-1` are visited once in
order, and a card is appended iff it has exactly one common symbol with every
card accepted so far. -/
def singleLeftToRightPass : List (List Int) → List (List Int)
  | [] => []
  | first :: others =>
    others.foldl
      (fun accepted card =>
        if accepted.all (fun a => countCommonSymbols card a == 1) then accepted ++ [card]
        else accepted)
      [first]

/-! ## The generator in closed form -/

theorem foldl_append_singleton {α β : Type} (f : α → β) (l : List α) (init : List β) :
    l.foldl (fun acc x => acc ++ [f x]) init = init ++ l.map f := by
  induction l generalizing init with
  | nil => simp
  | cons a l ih => simp [ih]

theorem foldl_append_list {α β : Type} (g : α → List β) (l : List α) (init : List β) :
    l.foldl (fun acc x => acc ++ g x) init = init ++ l.flatMap g := by
  induction l generalizing init with
  | nil => simp
  | cons a l ih => simp [ih]

/-- The deck of `generateDobbleByY` as base card, pencil cards, grid cards. -/
theorem generateDobbleByY_eq (y : Int) :
    generateDobbleByY y =
      firstCard (y - 1) :: ((List.range (y - 1).toNat).map (pencilCard (y - 1)) ++
        (List.range (y - 1).toNat).flatMap
          (fun i => (List.range (y - 1).toNat).map (gridCard (y - 1) i))) := by
  simp only [generateDobbleByY, foldl_append_singleton, foldl_append_list, firstCard,
    List.nil_append, List.singleton_append, List.cons_append]
  rfl

/-- Membership in the generated deck, by kind of card. -/
theorem mem_generateDobbleByY (y : Int) (card : List Int) :
    card ∈ generateDobbleByY y ↔
      card = firstCard (y - 1) ∨
      (∃ i, i < (y - 1).toNat ∧ card = pencilCard (y - 1) i) ∨
      (∃ i, i < (y - 1).toNat ∧ ∃ j, j < (y - 1).toNat ∧ card = gridCard (y - 1) i j) := by
  rw [generateDobbleByY_eq]
  simp only [List.mem_cons, List.mem_append, List.mem_map, List.mem_flatMap, List.mem_range]
  constructor
  · rintro (h | ⟨i, hi, rfl⟩ | ⟨i, hi, j, hj, rfl⟩)
    · exact Or.inl h
    · exact Or.inr (Or.inl ⟨i, hi, rfl⟩)
    · exact Or.inr (Or.inr ⟨i, hi, j, hj, rfl⟩)
  · rintro (h | ⟨i, hi, rfl⟩ | ⟨i, hi, j, hj, rfl⟩)
    · exact Or.inl h
    · exact Or.inr (Or.inl ⟨i, hi, rfl⟩)
    · exact Or.inr (Or.inr ⟨i, hi, j, hj, rfl⟩)

/-- For `y ≥ 2` the order `n = y - 1` is a positive natural number. -/
theorem order_eq_natCast (y : Int) (h : 2 ≤ y) :
    ∃ m : Nat, 1 ≤ m ∧ y - 1 = (m : Int) ∧ (y - 1).toNat = m :=
  ⟨(y - 1).toNat, by omega, by omega, rfl⟩

/-- The remainder in a grid symbol lies in `[0, m)`. -/
theorem grid_rem_bounds (m i k j : Nat) (hm : 1 ≤ m) :
    0 ≤ Int.tmod ((i : Int) * (k : Int) + (j : Int)) (m : Int) ∧
      Int.tmod ((i : Int) * (k : Int) + (j : Int)) (m : Int) < (m : Int) := by
  constructor
  · exact Int.tmod_nonneg _ (by positivity)
  · exact Int.tmod_lt_of_pos _ (by omega)

theorem length_firstCard (m : Nat) : (firstCard (m : Int)).length = m + 1 := by
  simp [firstCard]

theorem length_flatMap_const {α β : Type} (l : List α) (f : α → List β) (c : Nat)
    (h : ∀ a, (f a).length = c) : (l.flatMap f).length = l.length * c := by
  induction l with
  | nil => simp
  | cons a l ih => simp [List.flatMap_cons, ih, h, Nat.succ_mul, Nat.add_comm]

theorem length_pencilCard (m i : Nat) : (pencilCard (m : Int) i).length = m + 1 := by
  simp [pencilCard]

theorem length_gridCard (m i j : Nat) : (gridCard (m : Int) i j).length = m + 1 := by
  simp [gridCard]

theorem length_generateDobbleByY (y : Int) :
    (generateDobbleByY y).length = 1 + (y - 1).toNat + (y - 1).toNat * (y - 1).toNat := by
  rw [generateDobbleByY_eq]
  simp only [List.length_cons, List.length_append, List.length_map, List.length_range]
  rw [length_flatMap_const _ _ (y - 1).toNat (fun i => by simp)]
  simp only [List.length_range]
  omega

/-- C1: for every `symbolsPerCard ≥ 2`, with `n = symbolsPerCard - 1`, the
deck of `generateDobbleByY` has exactly `1 + n + n^2` cards, every card has
exactly `n + 1` symbols, and the number of cards equals the total symbol count
`n^2 + n + 1` that `GetTotalSymbols` reports after `Generate`. -/
theorem generateDobbleByY_card_count (dg : DobbleGenerator) (symbolsPerCard : Int)
    (h : 2 ≤ symbolsPerCard) :
    ((generateDobbleByY symbolsPerCard).length : Int)
        = 1 + (symbolsPerCard - 1) + (symbolsPerCard - 1) ^ 2 ∧
    (∀ card ∈ generateDobbleByY symbolsPerCard,
        (card.length : Int) = (symbolsPerCard - 1) + 1) ∧
    (((dg.Generate symbolsPerCard).2.length : Int)
        = (dg.Generate symbolsPerCard).1.GetTotalSymbols ∧
      (dg.Generate symbolsPerCard).1.GetTotalSymbols
        = (symbolsPerCard - 1) ^ 2 + (symbolsPerCard - 1) + 1) := by
  obtain ⟨m, hm1, hm, hmn⟩ := order_eq_natCast symbolsPerCard h
  have hlen : ((generateDobbleByY symbolsPerCard).length : Int)
      = 1 + (symbolsPerCard - 1) + (symbolsPerCard - 1) ^ 2 := by
    rw [length_generateDobbleByY, hmn, hm]
    push_cast
    ring
  refine ⟨hlen, ?_, ?_, ?_⟩
  · intro card hc
    rw [mem_generateDobbleByY, hm] at hc
    rw [hm]
    rcases hc with rfl | ⟨i, _, rfl⟩ | ⟨i, _, j, _, rfl⟩
    · rw [length_firstCard]; push_cast; ring
    · rw [length_pencilCard]; push_cast; ring
    · rw [length_gridCard]; push_cast; ring
  · show ((generateDobbleByY symbolsPerCard).length : Int) = _
    rw [hlen]
    simp only [DobbleGenerator.Generate, DobbleGenerator.GetTotalSymbols]
    ring
  · simp only [DobbleGenerator.Generate, DobbleGenerator.GetTotalSymbols]
    ring

/-- Witness of C1 at `symbolsPerCard = 3`: seven cards of three symbols. -/
theorem generateDobbleByY_card_count_witness :
    (2 : Int) ≤ 3 ∧
    ((generateDobbleByY 3).length : Int) = 1 + (3 - 1) + (3 - 1) ^ 2 ∧
    (∀ card ∈ generateDobbleByY 3, (card.length : Int) = (3 - 1) + 1) ∧
    (((NewDobbleGenerator.Generate 3).2.length : Int)
        = (NewDobbleGenerator.Generate 3).1.GetTotalSymbols ∧
      (NewDobbleGenerator.Generate 3).1.GetTotalSymbols = (3 - 1) ^ 2 + (3 - 1) + 1) :=
  ⟨by decide, generateDobbleByY_card_count NewDobbleGenerator 3 (by decide)⟩

/-- Symbols `a*m + r` with `0 ≤ r < m` determine the block index `a`. -/
theorem block_index_unique (m a b r t : Int) (hr0 : 0 ≤ r) (hr : r < m)
    (ht0 : 0 ≤ t) (ht : t < m) (h : a * m + r = b * m + t) : a = b := by
  have hm : 0 < m := lt_of_le_of_lt hr0 hr
  rcases lt_trichotomy a b with hab | hab | hab
  · exfalso
    have h1 : (a + 1) * m ≤ b * m := mul_le_mul_of_nonneg_right (by omega) hm.le
    have h2 : (a + 1) * m = a * m + m := by ring
    omega
  · exact hab
  · exfalso
    have h1 : (b + 1) * m ≤ a * m := mul_le_mul_of_nonneg_right (by omega) hm.le
    have h2 : (b + 1) * m = b * m + m := by ring
    omega

theorem nodup_firstCard (n : Int) : (firstCard n).Nodup := by
  unfold firstCard
  refine List.Nodup.map_on ?_ (List.nodup_range _)
  intro a _ b _ hab
  omega

theorem nodup_pencilCard (m i : Nat) : (pencilCard (m : Int) i).Nodup := by
  unfold pencilCard
  rw [List.nodup_cons]
  constructor
  · simp only [List.mem_map, List.mem_range, not_exists, not_and]
    intro j _ hj
    have : 0 ≤ (i : Int) * (m : Int) := by positivity
    omega
  · refine List.Nodup.map_on ?_ (List.nodup_range _)
    intro a _ b _ hab
    omega

theorem nodup_gridCard (m i j : Nat) (hm : 1 ≤ m) (hi : i < m) :
    (gridCard (m : Int) i j).Nodup := by
  unfold gridCard
  rw [List.nodup_cons]
  constructor
  · simp only [List.mem_map, List.mem_range, not_exists, not_and]
    intro k _ hk
    have h0 := (grid_rem_bounds m i k j hm).1
    have : 0 ≤ (k : Int) * (m : Int) := by positivity
    omega
  · refine List.Nodup.map_on ?_ (List.nodup_range _)
    intro a _ b _ hab
    have ha := grid_rem_bounds m i a j hm
    have hb := grid_rem_bounds m i b j hm
    have := block_index_unique (m : Int) (a : Int) (b : Int) _ _ ha.1 ha.2 hb.1 hb.2
      (by omega)
    exact_mod_cast this

/-- C2: for every `symbolsPerCard ≥ 2`, no card of
`generateDobbleByY symbolsPerCard` repeats a symbol. -/
theorem generateDobbleByY_cards_nodup (symbolsPerCard : Int) (h : 2 ≤ symbolsPerCard) :
    ∀ card ∈ generateDobbleByY symbolsPerCard, card.Nodup := by
  obtain ⟨m, hm1, hm, hmn⟩ := order_eq_natCast symbolsPerCard h
  intro card hc
  rw [mem_generateDobbleByY, hmn, hm] at hc
  rcases hc with rfl | ⟨i, _, rfl⟩ | ⟨i, hi, j, _, rfl⟩
  · exact nodup_firstCard _
  · exact nodup_pencilCard m i
  · exact nodup_gridCard m i j hm1 hi

/-- Witness of C2 at `symbolsPerCard = 4`. -/
theorem generateDobbleByY_cards_nodup_witness :
    (2 : Int) ≤ 4 ∧ ∀ card ∈ generateDobbleByY 4, card.Nodup :=
  ⟨by decide, generateDobbleByY_cards_nodup 4 (by decide)⟩

theorem firstCard_bounds (m : Nat) (s : Int) (hs : s ∈ firstCard (m : Int)) :
    1 ≤ s ∧ s ≤ (m : Int) ^ 2 + (m : Int) + 1 := by
  unfold firstCard at hs
  simp only [List.mem_map, List.mem_range] at hs
  obtain ⟨a, ha, rfl⟩ := hs
  have : 0 ≤ (m : Int) ^ 2 := by positivity
  omega

theorem pencilCard_bounds (m i : Nat) (hi : i < m) (s : Int)
    (hs : s ∈ pencilCard (m : Int) i) :
    1 ≤ s ∧ s ≤ (m : Int) ^ 2 + (m : Int) + 1 := by
  unfold pencilCard at hs
  simp only [List.mem_cons, List.mem_map, List.mem_range, Int.toNat_ofNat] at hs
  have hsq : 0 ≤ (m : Int) ^ 2 := by positivity
  rcases hs with rfl | ⟨a, ha, rfl⟩
  · omega
  · have h0 : 0 ≤ (i : Int) * (m : Int) := by positivity
    have h1 : ((i : Int) + 1) * (m : Int) ≤ (m : Int) * (m : Int) :=
      mul_le_mul_of_nonneg_right (by omega) (by positivity)
    have h2 : ((i : Int) + 1) * (m : Int) = (i : Int) * (m : Int) + (m : Int) := by ring
    have h3 : (m : Int) ^ 2 = (m : Int) * (m : Int) := by ring
    omega

theorem gridCard_bounds (m i j : Nat) (hm : 1 ≤ m) (hi : i < m) (s : Int)
    (hs : s ∈ gridCard (m : Int) i j) :
    1 ≤ s ∧ s ≤ (m : Int) ^ 2 + (m : Int) + 1 := by
  unfold gridCard at hs
  simp only [List.mem_cons, List.mem_map, List.mem_range, Int.toNat_ofNat] at hs
  have hsq : 0 ≤ (m : Int) ^ 2 := by positivity
  rcases hs with rfl | ⟨k, hk, rfl⟩
  · omega
  · have hr := grid_rem_bounds m i k j hm
    have h0 : 0 ≤ (k : Int) * (m : Int) := by positivity
    have h1 : ((k : Int) + 1) * (m : Int) ≤ (m : Int) * (m : Int) :=
      mul_le_mul_of_nonneg_right (by omega) (by positivity)
    have h2 : ((k : Int) + 1) * (m : Int) = (k : Int) * (m : Int) + (m : Int) := by ring
    have h3 : (m : Int) ^ 2 = (m : Int) * (m : Int) := by ring
    omega

/-- C3: for every `symbolsPerCard ≥ 2`, with `n = symbolsPerCard - 1`, every
symbol `s` on every card of `generateDobbleByY symbolsPerCard` satisfies
`1 ≤ s ≤ n^2 + n + 1`. -/
theorem generateDobbleByY_symbols_in_range (symbolsPerCard : Int) (h : 2 ≤ symbolsPerCard) :
    ∀ card ∈ generateDobbleByY symbolsPerCard, ∀ s ∈ card,
      1 ≤ s ∧ s ≤ (symbolsPerCard - 1) ^ 2 + (symbolsPerCard - 1) + 1 := by
  obtain ⟨m, hm1, hm, hmn⟩ := order_eq_natCast symbolsPerCard h
  intro card hc s hs
  rw [mem_generateDobbleByY, hmn, hm] at hc
  rw [hm]
  rcases hc with rfl | ⟨i, hi, rfl⟩ | ⟨i, hi, j, _, rfl⟩
  · exact firstCard_bounds m s hs
  · exact pencilCard_bounds m i hi s hs
  · exact gridCard_bounds m i j hm1 hi s hs

/-- Witness of C3 at `symbolsPerCard = 4`. -/
theorem generateDobbleByY_symbols_in_range_witness :
    (2 : Int) ≤ 4 ∧ ∀ card ∈ generateDobbleByY 4, ∀ s ∈ card,
      1 ≤ s ∧ s ≤ ((4 : Int) - 1) ^ 2 + (4 - 1) + 1 :=
  ⟨by decide, generateDobbleByY_symbols_in_range 4 (by decide)⟩

/-! ## Counting common symbols -/

theorem foldl_count_inner (s1 : Int) (card2 : List Int) (c0 : Nat) :
    card2.foldl (fun count s2 => if s1 = s2 then count + 1 else count) c0
      = c0 + card2.count s1 := by
  induction card2 generalizing c0 with
  | nil => simp
  | cons b l ih =>
    simp only [List.foldl_cons, ih, List.count_cons]
    by_cases h : s1 = b
    · subst h
      simp
      omega
    · have hb : (b == s1) = false := beq_eq_false_iff_ne.mpr (Ne.symm h)
      simp [h, hb]

theorem foldl_count_outer (card1 card2 : List Int) (c0 : Nat) :
    card1.foldl (fun count s1 =>
        card2.foldl (fun count s2 => if s1 = s2 then count + 1 else count) count) c0
      = c0 + (card1.map (fun s1 => card2.count s1)).sum := by
  induction card1 generalizing c0 with
  | nil => simp
  | cons a l ih =>
    rw [List.foldl_cons, ih, foldl_count_inner, List.map_cons, List.sum_cons]
    omega

/-- The counter of `countCommonSymbols` adds, for each symbol of the first
card, its number of occurrences in the second. -/
theorem countCommonSymbols_eq_sum (card1 card2 : List Int) :
    countCommonSymbols card1 card2 = (card1.map (fun s1 => card2.count s1)).sum := by
  unfold countCommonSymbols
  rw [foldl_count_outer]
  omega

theorem countCommonSymbols_nil_right (card1 : List Int) :
    countCommonSymbols card1 [] = 0 := by
  rw [countCommonSymbols_eq_sum]
  induction card1 with
  | nil => rfl
  | cons a l ih => simp

theorem countCommonSymbols_cons_right (card1 : List Int) (b : Int) (card2 : List Int) :
    countCommonSymbols card1 (b :: card2)
      = card1.count b + countCommonSymbols card1 card2 := by
  simp only [countCommonSymbols_eq_sum]
  induction card1 with
  | nil => simp
  | cons a l ih =>
    rw [List.map_cons, List.sum_cons, ih, List.map_cons, List.sum_cons, List.count_cons,
      List.count_cons]
    by_cases h : a = b
    · subst h
      simp
      omega
    · have h1 : (a == b) = false := beq_eq_false_iff_ne.mpr h
      have h2 : (b == a) = false := beq_eq_false_iff_ne.mpr (Ne.symm h)
      simp only [h1, h2]
      simp
      omega

/-- Swapping the two cards does not change the count. -/
theorem countCommonSymbols_swap (card1 card2 : List Int) :
    countCommonSymbols card1 card2 = countCommonSymbols card2 card1 := by
  induction card2 with
  | nil => rw [countCommonSymbols_nil_right]; rfl
  | cons b l ih =>
    rw [countCommonSymbols_cons_right, ih]
    conv_rhs => rw [countCommonSymbols_eq_sum]
    rw [List.map_cons, List.sum_cons, ← countCommonSymbols_eq_sum]

/-! ## The validator -/

/-- What the double loop of `validateCards` tests, pair of indices by pair. -/
theorem validateCards_iff_index (cards : List (List Int)) :
    validateCards cards = true ↔
      ∀ (i j : Nat) (hij : i < j) (hj : j < cards.length),
        countCommonSymbols cards[i] cards[j] = 1 := by
  unfold validateCards
  simp only [List.all_eq_true, List.mem_range, List.mem_range'_1, beq_iff_eq]
  constructor
  · intro h i j hij hj
    have := h i (by omega) j ⟨by omega, by omega⟩
    rwa [List.getD_eq_getElem _ _ (by omega), List.getD_eq_getElem _ _ hj] at this
  · intro h i hi j hj
    have := h i j (by omega) (by omega)
    rwa [List.getD_eq_getElem _ _ hi, List.getD_eq_getElem _ _ (by omega)]

/-- The validator accepts exactly the pairwise-one-common decks. -/
theorem validateCards_iff_pairwise (cards : List (List Int)) :
    validateCards cards = true ↔ cards.Pairwise OneCommon := by
  rw [validateCards_iff_index, List.pairwise_iff_getElem]
  constructor
  · intro h i j hi hj hij
    exact h i j hij hj
  · intro h i j hij hj
    exact h i j (by omega) hj hij

/-- C5: `validateCards deck` is true if and only if every pair of indices
`i < j < len(deck)` has `countCommonSymbols(deck[i], deck[j]) = 1`; in
particular it is true for the empty deck and for every one-card deck. -/
theorem validateCards_iff_all_pairs_one_common (deck : List (List Int)) :
    (validateCards deck = true ↔
      ∀ (i j : Nat) (hij : i < j) (hj : j < deck.length),
        countCommonSymbols deck[i] deck[j] = 1) ∧
    validateCards [] = true ∧ ∀ card : List Int, validateCards [card] = true := by
  refine ⟨validateCards_iff_index deck, by decide, ?_⟩
  intro card
  rw [validateCards_iff_index]
  intro i j hij hj
  simp at hj
  omega

/-! ## The greedy filter -/

theorem filterLoop_some (cards validCards : List (List Int)) (used : List Bool) (i : Nat)
    (h : findCandidate cards validCards used = some i) :
    filterLoop cards validCards used
      = filterLoop cards (validCards ++ [cards.getD i []]) (used.set i true) := by
  rw [filterLoop]
  split
  · rename_i j hj
    rw [h] at hj
    cases hj
    rfl
  · rename_i hj
    rw [h] at hj
    cases hj

theorem filterLoop_none (cards validCards : List (List Int)) (used : List Bool)
    (h : findCandidate cards validCards used = none) :
    filterLoop cards validCards used = validCards := by
  rw [filterLoop]
  split
  · rename_i j hj
    rw [h] at hj
    cases hj
  · rfl

/-- A card rejected by the accepted list stays rejected when the list grows. -/
theorem isValidCandidate_append_false (c : List Int) (acc more : List (List Int))
    (h : isValidCandidate c acc = false) : isValidCandidate c (acc ++ more) = false := by
  unfold isValidCandidate at *
  rw [List.all_append, h]
  rfl

/-- The scan steps over a stretch of rejected cards. -/
theorem scanOnce_skip (cards acc : List (List Int)) (p q : Nat) (hpq : p ≤ q)
    (hq : q ≤ cards.length)
    (h : ∀ j, p ≤ j → j < q → isValidCandidate (cards.getD j []) acc = false) :
    scanOnce acc (cards.drop p) = scanOnce acc (cards.drop q) := by
  induction q, hpq using Nat.le_induction with
  | base => rfl
  | succ q hpq ih =>
    have hq1 : q < cards.length := by omega
    rw [ih (by omega) (fun j hj1 hj2 => h j hj1 (by omega))]
    rw [List.drop_eq_getElem_cons hq1, scanOnce]
    have := h q hpq (by omega)
    rw [List.getD_eq_getElem _ _ hq1] at this
    simp [this]

theorem getD_set_true (used : List Bool) (i j : Nat) :
    (used.set i true).getD j true = if i = j then true else used.getD j true := by
  simp only [List.getD_eq_getElem?_getD, List.getElem?_set]
  by_cases hij : i = j
  · subst hij
    by_cases hi : i < used.length <;> simp [hi]
  · simp [hij]

/-- The restart loop computes the single scan: if every index below the
frontier `p` is used or rejected and every index from `p` on is unused, the
loop returns what one scan of the cards from `p` on returns. -/
theorem filterLoop_eq_scanOnce (cards : List (List Int)) :
    ∀ (validCards : List (List Int)) (used : List Bool) (p : Nat),
      1 ≤ p → p ≤ cards.length →
      (∀ j, 1 ≤ j → j < p →
        used.getD j true = true ∨ isValidCandidate (cards.getD j []) validCards = false) →
      (∀ j, p ≤ j → j < cards.length → used.getD j true = false) →
      filterLoop cards validCards used = scanOnce validCards (cards.drop p) := by
  intro validCards used
  induction validCards, used using filterLoop.induct cards with
  | case1 validCards used i hfind ih =>
    intro p hp1 hplen hbelow habove
    rw [filterLoop_some _ _ _ _ hfind]
    unfold findCandidate at hfind
    rw [List.find?_range'_eq_some] at hfind
    obtain ⟨hpi, hmem, hfirst⟩ := hfind
    rw [List.mem_range'_1] at hmem
    simp only [Bool.and_eq_true, Bool.not_eq_true'] at hpi
    have hilen : i < cards.length := by omega
    have hpi_le : p ≤ i := by
      by_contra hlt
      rcases hbelow i hmem.1 (by omega) with hu | hv
      · rw [hpi.1] at hu
        cases hu
      · rw [hpi.2] at hv
        cases hv
    have hrej : ∀ j, p ≤ j → j < i → isValidCandidate (cards.getD j []) validCards = false := by
      intro j hj1 hj2
      have h1 := hfirst j (by omega) hj2
      have h2 := habove j hj1 (by omega)
      rw [h2] at h1
      simpa using h1
    rw [scanOnce_skip cards validCards p i hpi_le (by omega) hrej]
    rw [List.drop_eq_getElem_cons hilen, scanOnce]
    have hval := hpi.2
    rw [List.getD_eq_getElem _ _ hilen] at hval
    rw [if_pos hval, ← List.getD_eq_getElem _ [] hilen]
    apply ih (i + 1) (by omega) (by omega)
    · intro j hj1 hj2
      rw [getD_set_true]
      by_cases hij : i = j
      · left
        simp [hij]
      · rw [if_neg hij]
        by_cases hjp : j < p
        · rcases hbelow j hj1 hjp with hu | hv
          · exact Or.inl hu
          · exact Or.inr (isValidCandidate_append_false _ _ _ hv)
        · right
          exact isValidCandidate_append_false _ _ _ (hrej j (by omega) (by omega))
    · intro j hj1 hj2
      rw [getD_set_true, if_neg (by omega)]
      exact habove j (by omega) hj2
  | case2 validCards used hfind =>
    intro p hp1 hplen hbelow habove
    rw [filterLoop_none _ _ _ hfind]
    unfold findCandidate at hfind
    rw [List.find?_range'_eq_none] at hfind
    have hrej : ∀ j, p ≤ j → j < cards.length →
        isValidCandidate (cards.getD j []) validCards = false := by
      intro j hj1 hj2
      have h1 := hfind j (by omega) (by omega)
      have h2 := habove j hj1 hj2
      rw [h2] at h1
      simpa using h1
    rw [scanOnce_skip cards validCards p cards.length hplen (le_refl _) hrej]
    simp [scanOnce]

/-- The restart loop of `filterValidCards` returns what the single-pass
filter returns. -/
theorem filterValidCards_eq_filterSinglePass (cards : List (List Int)) :
    filterValidCards cards = filterSinglePass cards := by
  cases cards with
  | nil => rfl
  | cons c rest =>
    unfold filterValidCards
    rw [if_neg (by simp)]
    rw [filterLoop_eq_scanOnce (c :: rest) _ _ 1 (le_refl _) (by simp)]
    · rfl
    · intro j hj1 hj2
      omega
    · intro j hj1 hj2
      rw [getD_set_true, if_neg (by omega)]
      simp only [List.getD_eq_getElem?_getD]
      rw [List.getElem?_replicate]
      have hj3 : j < rest.length + 1 := hj2
      simp [hj3]

theorem isValidCandidate_iff (c : List Int) (acc : List (List Int)) :
    isValidCandidate c acc = true ↔ ∀ a ∈ acc, countCommonSymbols c a = 1 := by
  unfold isValidCandidate
  simp only [List.all_eq_true, beq_iff_eq]

/-- The scan keeps the accepted list as a prefix and adds to it cards of the
scanned list in their order. -/
theorem scanOnce_eq_append (l : List (List Int)) :
    ∀ acc : List (List Int), ∃ t, scanOnce acc l = acc ++ t ∧ t.Sublist l := by
  induction l with
  | nil => intro acc; exact ⟨[], by simp [scanOnce], List.Sublist.refl _⟩
  | cons c rest ih =>
    intro acc
    rw [scanOnce]
    by_cases hv : isValidCandidate c acc = true
    · rw [if_pos hv]
      obtain ⟨t, ht, hsub⟩ := ih (acc ++ [c])
      exact ⟨c :: t, by rw [ht]; simp, hsub.cons₂ c⟩
    · rw [if_neg hv]
      obtain ⟨t, ht, hsub⟩ := ih acc
      exact ⟨t, ht, hsub.cons c⟩

/-- The scan preserves the pairwise invariant of the accepted list. -/
theorem scanOnce_pairwise (l : List (List Int)) :
    ∀ acc : List (List Int), acc.Pairwise OneCommon → (scanOnce acc l).Pairwise OneCommon := by
  induction l with
  | nil => intro acc h; simpa [scanOnce] using h
  | cons c rest ih =>
    intro acc h
    rw [scanOnce]
    by_cases hv : isValidCandidate c acc = true
    · rw [if_pos hv]
      apply ih
      rw [List.pairwise_append]
      refine ⟨h, List.pairwise_singleton _ _, ?_⟩
      intro a ha b hb
      rw [List.mem_singleton] at hb
      subst hb
      unfold OneCommon
      rw [countCommonSymbols_swap]
      exact (isValidCandidate_iff _ _).1 hv a ha
    · rw [if_neg hv]
      exact ih acc h

/-- On a pairwise-valid list the scan accepts every card. -/
theorem scanOnce_of_pairwise (l : List (List Int)) :
    ∀ acc : List (List Int), (acc ++ l).Pairwise OneCommon → scanOnce acc l = acc ++ l := by
  induction l with
  | nil => intro acc _; simp [scanOnce]
  | cons c rest ih =>
    intro acc h
    have hv : isValidCandidate c acc = true := by
      rw [isValidCandidate_iff]
      intro a ha
      rw [List.pairwise_append] at h
      rw [countCommonSymbols_swap]
      exact h.2.2 a ha c (List.mem_cons_self _ _)
    rw [scanOnce, if_pos hv, ih (acc ++ [c]) (by simpa using h)]
    simp

/-- After the scan every scanned card is either accepted or in conflict with
an accepted card. -/
theorem scanOnce_maximal (l : List (List Int)) :
    ∀ acc : List (List Int), ∀ c ∈ l,
      c ∈ scanOnce acc l ∨ ∃ a ∈ scanOnce acc l, countCommonSymbols c a ≠ 1 := by
  induction l with
  | nil => intro acc c hc; cases hc
  | cons d rest ih =>
    intro acc c hc
    rw [scanOnce]
    by_cases hv : isValidCandidate d acc = true
    · rw [if_pos hv]
      rcases List.mem_cons.1 hc with rfl | hc
      · left
        obtain ⟨t, ht, _⟩ := scanOnce_eq_append rest (acc ++ [c])
        rw [ht]
        simp
      · exact ih (acc ++ [d]) c hc
    · rw [if_neg hv]
      rcases List.mem_cons.1 hc with rfl | hc
      · right
        rw [isValidCandidate_iff] at hv
        push_neg at hv
        obtain ⟨a, ha, hne⟩ := hv
        obtain ⟨t, ht, _⟩ := scanOnce_eq_append rest acc
        exact ⟨a, by rw [ht]; exact List.mem_append_left _ ha, hne⟩
      · exact ih acc c hc

/-- C6: for every input deck the output of `filterValidCards` passes the
validator: `validateCards (filterValidCards deck) = true`. -/
theorem validateCards_filterValidCards (deck : List (List Int)) :
    validateCards (filterValidCards deck) = true := by
  rw [filterValidCards_eq_filterSinglePass, validateCards_iff_pairwise]
  cases deck with
  | nil => exact List.Pairwise.nil
  | cons c rest => exact scanOnce_pairwise rest [c] (List.pairwise_singleton _ _)

/-- C7: a deck that passes `validateCards` is returned unchanged by
`filterValidCards` (same cards, same order). -/
theorem filterValidCards_of_valid (d : List (List Int)) (h : validateCards d = true) :
    filterValidCards d = d := by
  rw [filterValidCards_eq_filterSinglePass]
  rw [validateCards_iff_pairwise] at h
  cases d with
  | nil => rfl
  | cons c rest => exact scanOnce_of_pairwise rest [c] h

/-- Witness of C7 on the three-card deck of order 1. -/
theorem filterValidCards_of_valid_witness :
    validateCards [[1, 2], [1, 3], [2, 3]] = true ∧
      filterValidCards [[1, 2], [1, 3], [2, 3]] = [[1, 2], [1, 3], [2, 3]] :=
  ⟨by decide, filterValidCards_of_valid [[1, 2], [1, 3], [2, 3]] (by decide)⟩

/-- C8: on a non-empty deck `filterValidCards` returns a non-empty list whose
first element is the first card of the input; on the empty deck it returns
the empty deck. -/
theorem filterValidCards_head (card : List Int) (rest : List (List Int)) :
    filterValidCards (card :: rest) ≠ [] ∧
      (filterValidCards (card :: rest)).head? = some card ∧
      filterValidCards [] = [] := by
  obtain ⟨t, ht, _⟩ := scanOnce_eq_append rest [card]
  have h : filterValidCards (card :: rest) = card :: t := by
    rw [filterValidCards_eq_filterSinglePass]
    exact ht
  rw [h]
  exact ⟨by simp, rfl, rfl⟩

/-- C9: the output of `filterValidCards` is an order-preserving sub-sequence
of its input (cards of the input at strictly increasing positions), and so
never has more cards than the input. -/
theorem filterValidCards_sublist (deck : List (List Int)) :
    (filterValidCards deck).Sublist deck ∧
      (filterValidCards deck).length ≤ deck.length := by
  have h : (filterValidCards deck).Sublist deck := by
    rw [filterValidCards_eq_filterSinglePass]
    cases deck with
    | nil => exact List.Sublist.refl _
    | cons c rest =>
      obtain ⟨t, ht, hsub⟩ := scanOnce_eq_append rest [c]
      show (scanOnce [c] rest).Sublist (c :: rest)
      rw [ht]
      exact hsub.cons₂ c
  exact ⟨h, h.length_le⟩

/-- C10: the output of `filterValidCards` cannot be extended: every card `c`
of the input that does not occur in the output has other than one common
symbol with some card `a` of the output. -/
theorem filterValidCards_maximal (deck : List (List Int)) (c : List Int)
    (hc : c ∈ deck) (hout : c ∉ filterValidCards deck) :
    ∃ a ∈ filterValidCards deck, countCommonSymbols c a ≠ 1 := by
  rw [filterValidCards_eq_filterSinglePass] at hout ⊢
  cases deck with
  | nil => cases hc
  | cons d rest =>
    rcases List.mem_cons.1 hc with rfl | hc
    · exfalso
      apply hout
      obtain ⟨t, ht, _⟩ := scanOnce_eq_append rest [c]
      show c ∈ scanOnce [c] rest
      rw [ht]
      simp
    · rcases scanOnce_maximal rest [d] c hc with hin | hex
      · exact absurd hin hout
      · exact hex

/-- Witness of C10: in `[[1], [2, 3], [2, 4]]` the card `[2, 3]` is left out
and has no common symbol with the accepted card `[1]`. -/
theorem filterValidCards_maximal_witness :
    [2, 3] ∈ [[1], [2, 3], [2, 4]] ∧ [2, 3] ∉ filterValidCards [[1], [2, 3], [2, 4]] ∧
      ∃ a ∈ filterValidCards [[1], [2, 3], [2, 4]], countCommonSymbols [2, 3] a ≠ 1 :=
  ⟨by decide, by rw [filterValidCards_eq_filterSinglePass]; decide,
    filterValidCards_maximal [[1], [2, 3], [2, 4]] [2, 3] (by decide)
      (by rw [filterValidCards_eq_filterSinglePass]; decide)⟩

/-! ## An advertised prime-power order -/

set_option maxRecDepth 100000 in
/-- C4 (the code departs from the claim): `symbolsPerCard = 5` lies in
`[2, 15]`, is advertised as supported, and has `n = 4 = 2^2`, a prime power;
yet `validateCards (generateDobbleByY 5) = false`: the grid cards of
`(i, j) = (0, 0)` and `(2, 0)` have two common symbols, and of the 21 cards
the filter keeps 13. -/
theorem generateDobbleByY_five_not_valid :
    (5 : Int) ∈ advertisedSupportedValues ∧
      IsPrimePow ((5 : Nat) - 1) ∧
      (generateDobbleByY 5).length = 21 ∧
      validateCards (generateDobbleByY 5) = false ∧
      countCommonSymbols (gridCard 4 0 0) (gridCard 4 2 0) = 2 ∧
      (filterValidCards (generateDobbleByY 5)).length = 13 := by
  refine ⟨by decide, ?_, by decide, by decide, by decide, ?_⟩
  · rw [isPrimePow_nat_iff]
    exact ⟨2, 2, by norm_num, by norm_num, by norm_num⟩
  · rw [filterValidCards_eq_filterSinglePass]
    decide

/-! ## The facade, the order-1 scenario and the layout of the deck -/

/-- C11: for every `symbolsPerCard ≥ 2`, after `Generate(symbolsPerCard)`
the generator's `GetTotalSymbols()` returns
`(symbolsPerCard-1)^2 + (symbolsPerCard-1) + 1`. -/
theorem getTotalSymbols_after_generate (dg : DobbleGenerator) (symbolsPerCard : Int)
    (_h : 2 ≤ symbolsPerCard) :
    (dg.Generate symbolsPerCard).1.GetTotalSymbols
      = (symbolsPerCard - 1) ^ 2 + (symbolsPerCard - 1) + 1 := by
  simp only [DobbleGenerator.Generate, DobbleGenerator.GetTotalSymbols]
  ring

/-- Witness of C11 at `symbolsPerCard = 15`: 211 symbols. -/
theorem getTotalSymbols_after_generate_witness :
    (2 : Int) ≤ 15 ∧
      (NewDobbleGenerator.Generate 15).1.GetTotalSymbols = (15 - 1) ^ 2 + (15 - 1) + 1 :=
  ⟨by decide, getTotalSymbols_after_generate NewDobbleGenerator 15 (by decide)⟩

/-- C12: `countCommonSymbols` is symmetric: for all integer lists `A` and
`B`, `countCommonSymbols(A, B) = countCommonSymbols(B, A)`. -/
theorem countCommonSymbols_symmetric (A B : List Int) :
    countCommonSymbols A B = countCommonSymbols B A :=
  countCommonSymbols_swap A B

/-- C13: for `symbolsPerCard = 2` the generator returns exactly
`[[1,2],[1,3],[2,3]]`, the validator accepts it, the total symbol count is 3,
and the displayed deck has 3 cards. -/
theorem scenario_symbolsPerCard_two :
    generateDobbleByY 2 = [[1, 2], [1, 3], [2, 3]] ∧
      validateCards (generateDobbleByY 2) = true ∧
      (NewDobbleGenerator.Generate 2).1.GetTotalSymbols = 3 ∧
      (displayCards (NewDobbleGenerator.Generate 2).2).length = 3 := by
  refine ⟨by decide, by decide, by decide, by decide⟩

/-- C14: for every `symbolsPerCard ≥ 2` with `n = symbolsPerCard - 1`, the
deck of `generateDobbleByY` is, in this order: the base card `[1, ..., n+1]`;
for `i = 0..n-1` the pencil card `1` followed by `(n+1) + i*n + j + 1` for
`j = 0..n-1`; for `i = 0..n-1` and inside `j = 0..n-1` the grid card `i+2`
followed by `(n+1) + k*n + ((i*k+j) mod n) + 1` for `k = 0..n-1`. -/
theorem generateDobbleByY_layout (symbolsPerCard : Int) (n : Nat)
    (h : 2 ≤ symbolsPerCard) (hn : (n : Int) = symbolsPerCard - 1) :
    generateDobbleByY symbolsPerCard =
      [(List.range (n + 1)).map (fun (s : Nat) => ((s + 1 : Nat) : Int))] ++
      (List.range n).map (fun (i : Nat) =>
        (1 : Int) :: (List.range n).map
          (fun (j : Nat) => (((n + 1) + i * n + j + 1 : Nat) : Int))) ++
      (List.range n).flatMap (fun (i : Nat) =>
        (List.range n).map (fun (j : Nat) =>
          ((i + 2 : Nat) : Int) :: (List.range n).map
            (fun (k : Nat) => (((n + 1) + k * n + (i * k + j) % n + 1 : Nat) : Int)))) := by
  have hn1 : 1 ≤ n := by omega
  rw [generateDobbleByY_eq, ← hn]
  have h1 : ((n : Int) + 1).toNat = n + 1 := by omega
  have hmod : ∀ i k j : Nat,
      Int.tmod ((i : Int) * (k : Int) + (j : Int)) (n : Int) = (((i * k + j) % n : Nat) : Int) := by
    intro i k j
    rw [Int.tmod_eq_emod (by positivity) (by positivity)]
    push_cast
    rfl
  have hfirst : firstCard (n : Int)
      = (List.range (n + 1)).map (fun (s : Nat) => ((s + 1 : Nat) : Int)) := by
    simp only [firstCard, h1]
    push_cast
    rfl
  have hpencil : pencilCard (n : Int) = fun (i : Nat) =>
      (1 : Int) :: (List.range n).map
        (fun (j : Nat) => (((n + 1) + i * n + j + 1 : Nat) : Int)) := by
    funext i
    simp only [pencilCard, Int.toNat_ofNat]
    push_cast
    rfl
  have hgrid : gridCard (n : Int) = fun (i j : Nat) =>
      ((i + 2 : Nat) : Int) :: (List.range n).map
        (fun (k : Nat) => (((n + 1) + k * n + (i * k + j) % n + 1 : Nat) : Int)) := by
    funext i j
    simp only [gridCard, Int.toNat_ofNat, hmod]
    push_cast
    rfl
  rw [hfirst, hpencil, hgrid, Int.toNat_ofNat]
  rfl

/-- Witness of C14 at `symbolsPerCard = 3`, `n = 2`. -/
theorem generateDobbleByY_layout_witness :
    (2 : Int) ≤ 3 ∧ ((2 : Nat) : Int) = 3 - 1 ∧
    generateDobbleByY 3 =
      [(List.range (2 + 1)).map (fun (s : Nat) => ((s + 1 : Nat) : Int))] ++
      (List.range 2).map (fun (i : Nat) =>
        (1 : Int) :: (List.range 2).map
          (fun (j : Nat) => (((2 + 1) + i * 2 + j + 1 : Nat) : Int))) ++
      (List.range 2).flatMap (fun (i : Nat) =>
        (List.range 2).map (fun (j : Nat) =>
          ((i + 2 : Nat) : Int) :: (List.range 2).map
            (fun (k : Nat) => (((2 + 1) + k * 2 + (i * k + j) % 2 + 1 : Nat) : Int)))) :=
  ⟨by decide, by decide, generateDobbleByY_layout 3 2 (by decide) (by decide)⟩

/-! ## The greedy filter as a single pass, and its non-optimality -/

theorem scanOnce_eq_foldl (l : List (List Int)) :
    ∀ acc : List (List Int),
      scanOnce acc l =
        l.foldl
          (fun accepted card =>
            if accepted.all (fun a => countCommonSymbols card a == 1) then accepted ++ [card]
            else accepted)
          acc := by
  induction l with
  | nil => intro acc; rfl
  | cons c rest ih =>
    intro acc
    rw [scanOnce, List.foldl_cons]
    by_cases hv : isValidCandidate c acc = true
    · rw [if_pos hv, ih]
      unfold isValidCandidate at hv
      rw [if_pos hv]
    · rw [if_neg hv, ih]
      unfold isValidCandidate at hv
      rw [if_neg hv]

/-- C17: the greedy filter is not a maximum-subset solver: for the deck
`[[1],[2,3],[2,4],[2,5]]` the order-preserving sub-sequence
`[[2,3],[2,4],[2,5]]` passes `validateCards` and has strictly more cards than
`filterValidCards` of the deck, which is `[[1]]`. -/
theorem filterValidCards_not_maximum :
    ∃ deck sub : List (List Int),
      sub.Sublist deck ∧ validateCards sub = true ∧
        (filterValidCards deck).length < sub.length := by
  refine ⟨[[1], [2, 3], [2, 4], [2, 5]], [[2, 3], [2, 4], [2, 5]], ?_, by decide, ?_⟩
  · exact List.Sublist.cons _ (List.Sublist.refl _)
  · rw [filterValidCards_eq_filterSinglePass]
    decide

/-- C18: the restart-on-success loop of `filterValidCards` is equivalent to
a single left-to-right pass: for every deck, `filterValidCards deck` is the
result of visiting the cards `1..len-1` once in order, starting from
`[deck[0]]`, appending a card iff it has exactly one common symbol with every
card accepted so far; and a card rejected by an accepted list is rejected by
every longer accepted list, so a later pass never accepts it. -/
theorem filterValidCards_eq_singleLeftToRightPass (deck : List (List Int)) :
    filterValidCards deck = singleLeftToRightPass deck ∧
      ∀ (card : List Int) (accepted later : List (List Int)),
        isValidCandidate card accepted = false →
          isValidCandidate card (accepted ++ later) = false := by
  refine ⟨?_, fun card accepted later h => isValidCandidate_append_false card accepted later h⟩
  rw [filterValidCards_eq_filterSinglePass]
  cases deck with
  | nil => rfl
  | cons c rest => exact scanOnce_eq_foldl rest [c]

/-- Witness of C18 on `[[1], [2, 3], [1, 2]]`: the card `[2, 3]`, rejected by
`[[1]]`, stays rejected once `[1, 2]` is accepted. -/
theorem filterValidCards_eq_singleLeftToRightPass_witness :
    filterValidCards [[1], [2, 3], [1, 2]] = singleLeftToRightPass [[1], [2, 3], [1, 2]] ∧
      isValidCandidate [2, 3] [[1]] = false ∧
      isValidCandidate [2, 3] ([[1]] ++ [[1, 2]]) = false :=
  ⟨(filterValidCards_eq_singleLeftToRightPass [[1], [2, 3], [1, 2]]).1, by decide,
    (filterValidCards_eq_singleLeftToRightPass [[1], [2, 3], [1, 2]]).2 [2, 3] [[1]] [[1, 2]]
      (by decide)⟩

/-! ## Input validation -/

/-- C15: `validateInput` succeeds with value `v` exactly when the input is
non-empty, parses as a decimal integer `v`, and `2 ≤ v ≤ 15`; otherwise it
returns an error, the checks being made in the order: empty string, then
non-numeric, then `v ≤ 1`, then `v > 15`.  In particular `""`, `"abc"`, `"0"`,
`"1"` and `"16"` are all rejected. -/
theorem validateInput_accepts_iff (atoi : String → Option Int) (input : String) :
    (∀ v : Int, validateInput atoi input = (v, none) ↔
      (input ≠ "" ∧ atoi input = some v ∧ 2 ≤ v ∧ v ≤ 15)) ∧
    (input = "" → validateInput atoi input = (0, some InputError.missingInput)) ∧
    (input ≠ "" → atoi input = none →
      validateInput atoi input = (0, some InputError.invalidNumber)) ∧
    (∀ v : Int, input ≠ "" → atoi input = some v → v ≤ 1 →
      validateInput atoi input = (0, some InputError.notGreaterThanOne)) ∧
    (∀ v : Int, input ≠ "" → atoi input = some v → 1 < v → 15 < v →
      validateInput atoi input = (0, some InputError.aboveLimit)) ∧
    (validateInput Atoi "" = (0, some InputError.missingInput) ∧
      validateInput Atoi "abc" = (0, some InputError.invalidNumber) ∧
      validateInput Atoi "0" = (0, some InputError.notGreaterThanOne) ∧
      validateInput Atoi "1" = (0, some InputError.notGreaterThanOne) ∧
      validateInput Atoi "16" = (0, some InputError.aboveLimit)) := by
  refine ⟨?_, ?_, ?_, ?_, ?_, by decide, by decide, by decide, by decide, by decide⟩
  · intro v
    unfold validateInput MaxSymbolsPerCard
    by_cases he : input = ""
    · simp [he]
    · rw [if_neg he]
      cases hat : atoi input with
      | none => simp [he]
      | some w =>
        simp only [he, ne_eq, not_false_eq_true, Option.some.injEq, true_and]
        by_cases h1 : w ≤ 1
        · rw [if_pos h1]
          constructor
          · intro h
            cases h
          · rintro ⟨rfl, h2, _⟩
            omega
        · rw [if_neg h1]
          by_cases h2 : w > 15
          · rw [if_pos h2]
            constructor
            · intro h
              cases h
            · rintro ⟨rfl, _, h3⟩
              omega
          · rw [if_neg h2]
            constructor
            · intro h
              cases h
              exact ⟨rfl, by omega, by omega⟩
            · rintro ⟨rfl, _, _⟩
              rfl
  · intro he
    simp [validateInput, he]
  · intro he hat
    simp [validateInput, he, hat]
  · intro v he hat hv
    simp [validateInput, he, hat, hv]
  · intro v he hat h1 h2
    have h3 : ¬ v ≤ 1 := by omega
    simp [validateInput, he, hat, h3, MaxSymbolsPerCard, h2]

/-- Witness of C15: with the library parser, `"7"` is accepted as `7`. -/
theorem validateInput_accepts_iff_witness :
    validateInput Atoi "7" = (7, none) :=
  ((validateInput_accepts_iff Atoi "7").1 7).2 ⟨by decide, by decide, by decide, by decide⟩

/-! ## What `countCommonSymbols` counts -/

theorem sum_map_indicator_eq_count (a : Int) (B : List Int) :
    (B.map (fun b => if a = b then 1 else 0)).sum = B.count a := by
  induction B with
  | nil => rfl
  | cons b l ih =>
    rw [List.map_cons, List.sum_cons, ih, List.count_cons]
    by_cases h : a = b
    · subst h
      simp
      omega
    · have hb : (b == a) = false := beq_eq_false_iff_ne.mpr (Ne.symm h)
      simp [h, hb]

theorem sum_map_mem_eq_length_filter (A B : List Int) :
    (A.map (fun s => if s ∈ B then 1 else 0)).sum = (A.filter (fun s => decide (s ∈ B))).length := by
  induction A with
  | nil => rfl
  | cons a l ih =>
    rw [List.map_cons, List.sum_cons, ih, List.filter_cons]
    by_cases h : a ∈ B
    · simp [h]
      omega
    · simp [h]

/-- On duplicate-free cards the count is the size of the set intersection. -/
theorem countCommonSymbols_eq_card_inter (A B : List Int) (hA : A.Nodup) (hB : B.Nodup) :
    countCommonSymbols A B = (A.toFinset ∩ B.toFinset).card := by
  rw [countCommonSymbols_eq_sum]
  have hcount : (fun s => B.count s) = fun s => if s ∈ B then 1 else 0 := by
    funext s
    exact List.count_eq_of_nodup hB
  rw [hcount, sum_map_mem_eq_length_filter,
    ← List.toFinset_card_of_nodup (hA.filter _), List.toFinset_filter]
  congr 1
  ext s
  simp

/-- In general the count is the number of index pairs with equal entries. -/
theorem countCommonSymbols_eq_card_pairs (A B : List Int) :
    countCommonSymbols A B =
      ((Finset.univ : Finset (Fin A.length × Fin B.length)).filter
        (fun p => A.get p.1 = B.get p.2)).card := by
  rw [countCommonSymbols_eq_sum, Finset.card_filter, ← Finset.univ_product_univ,
    Finset.sum_product, ← Fin.sum_univ_get' A (fun s => B.count s)]
  refine Finset.sum_congr rfl (fun i _ => ?_)
  rw [← sum_map_indicator_eq_count, ← Fin.sum_univ_get' B]
  rfl

/-- C16: for integer lists `A` and `B` without repeated elements,
`countCommonSymbols A B` is the number of symbols present in both (the size of
the set intersection); for arbitrary lists it is the number of index pairs
`(i, j)` with `A[i] = B[j]`. -/
theorem countCommonSymbols_counts (A B : List Int) :
    (A.Nodup → B.Nodup → countCommonSymbols A B = (A.toFinset ∩ B.toFinset).card) ∧
      countCommonSymbols A B =
        ((Finset.univ : Finset (Fin A.length × Fin B.length)).filter
          (fun p => A.get p.1 = B.get p.2)).card :=
  ⟨countCommonSymbols_eq_card_inter A B, countCommonSymbols_eq_card_pairs A B⟩

/-- Witness of C16: `[1, 2, 3]` and `[2, 3, 4]` have two symbols in common. -/
theorem countCommonSymbols_counts_witness :
    [1, 2, 3].Nodup ∧ [2, 3, 4].Nodup ∧
      countCommonSymbols [1, 2, 3] [2, 3, 4]
        = (([1, 2, 3] : List Int).toFinset ∩ ([2, 3, 4] : List Int).toFinset).card :=
  ⟨by decide, by decide, (countCommonSymbols_counts [1, 2, 3] [2, 3, 4]).1 (by decide) (by decide)⟩

/-! ## The symbols of each kind of card -/

theorem grid_tmod_eq (m i k j : Nat) :
    Int.tmod ((i : Int) * (k : Int) + (j : Int)) (m : Int) = (((i * k + j) % m : Nat) : Int) := by
  rw [Int.tmod_eq_emod (by positivity) (by positivity)]
  push_cast
  rfl

theorem mem_firstCard (m : Nat) (s : Int) :
    s ∈ firstCard (m : Int) ↔ 1 ≤ s ∧ s ≤ (m : Int) + 1 := by
  unfold firstCard
  simp only [List.mem_map, List.mem_range]
  constructor
  · rintro ⟨a, ha, rfl⟩
    omega
  · rintro ⟨h1, h2⟩
    exact ⟨(s - 1).toNat, by omega, by omega⟩

theorem mem_pencilCard (m i : Nat) (s : Int) :
    s ∈ pencilCard (m : Int) i ↔
      s = 1 ∨ ∃ j : Nat, j < m ∧ s = (m : Int) + 1 + (i : Int) * (m : Int) + (j : Int) + 1 := by
  unfold pencilCard
  simp only [List.mem_cons, List.mem_map, List.mem_range, Int.toNat_ofNat]
  constructor
  · rintro (h | ⟨j, hj, rfl⟩)
    · exact Or.inl h
    · exact Or.inr ⟨j, hj, rfl⟩
  · rintro (h | ⟨j, hj, rfl⟩)
    · exact Or.inl h
    · exact Or.inr ⟨j, hj, rfl⟩

theorem mem_gridCard (m i j : Nat) (s : Int) :
    s ∈ gridCard (m : Int) i j ↔
      s = (i : Int) + 2 ∨ ∃ k : Nat, k < m ∧
        s = (m : Int) + 1 + (k : Int) * (m : Int) + (((i * k + j) % m : Nat) : Int) + 1 := by
  unfold gridCard
  simp only [List.mem_cons, List.mem_map, List.mem_range, Int.toNat_ofNat, grid_tmod_eq]
  constructor
  · rintro (h | ⟨k, hk, rfl⟩)
    · exact Or.inl h
    · exact Or.inr ⟨k, hk, rfl⟩
  · rintro (h | ⟨k, hk, rfl⟩)
    · exact Or.inl h
    · exact Or.inr ⟨k, hk, rfl⟩

/-- A block symbol `(m+1) + k*m + r + 1` with `r < m` is at least `m + 2`. -/
theorem block_symbol_ge (m k r : Nat) :
    (m : Int) + 2 ≤ (m : Int) + 1 + (k : Int) * (m : Int) + (r : Int) + 1 := by
  have : 0 ≤ (k : Int) * (m : Int) := by positivity
  omega

/-- Two block symbols are equal only with the same block and the same
remainder. -/
theorem block_symbol_inj (m k r k2 r2 : Nat) (hr : r < m) (hr2 : r2 < m)
    (h : (m : Int) + 1 + (k : Int) * (m : Int) + (r : Int) + 1
      = (m : Int) + 1 + (k2 : Int) * (m : Int) + (r2 : Int) + 1) :
    k = k2 ∧ r = r2 := by
  have hk : (k : Int) = (k2 : Int) :=
    block_index_unique (m : Int) k k2 r r2 (by positivity) (by exact_mod_cast hr)
      (by positivity) (by exact_mod_cast hr2) (by omega)
  have hk2 : k = k2 := by exact_mod_cast hk
  subst hk2
  exact ⟨rfl, by omega⟩

/-- Two duplicate-free cards have exactly one common symbol iff some symbol
lies on both and every symbol on both is that one. -/
theorem countCommonSymbols_eq_one_iff (A B : List Int) (hA : A.Nodup) (hB : B.Nodup) :
    countCommonSymbols A B = 1 ↔ ∃ s, s ∈ A ∧ s ∈ B ∧ ∀ t, t ∈ A → t ∈ B → t = s := by
  rw [countCommonSymbols_eq_card_inter A B hA hB, Finset.card_eq_one]
  constructor
  · rintro ⟨s, hs⟩
    have hmem : ∀ t, t ∈ A.toFinset ∩ B.toFinset ↔ t = s := by
      intro t
      rw [hs, Finset.mem_singleton]
    simp only [Finset.mem_inter, List.mem_toFinset] at hmem
    exact ⟨s, ((hmem s).2 rfl).1, ((hmem s).2 rfl).2, fun t ht1 ht2 => (hmem t).1 ⟨ht1, ht2⟩⟩
  · rintro ⟨s, hs1, hs2, huniq⟩
    refine ⟨s, ?_⟩
    ext t
    simp only [Finset.mem_inter, List.mem_toFinset, Finset.mem_singleton]
    constructor
    · rintro ⟨h1, h2⟩
      exact huniq t h1 h2
    · rintro rfl
      exact ⟨hs1, hs2⟩

/-! ## Pairs of generated cards -/

theorem oneCommon_first_pencil (m i : Nat) :
    OneCommon (firstCard (m : Int)) (pencilCard (m : Int) i) := by
  unfold OneCommon
  rw [countCommonSymbols_eq_one_iff _ _ (nodup_firstCard _) (nodup_pencilCard m i)]
  refine ⟨1, (mem_firstCard m 1).2 ⟨le_refl _, by omega⟩, (mem_pencilCard m i 1).2 (Or.inl rfl), ?_⟩
  intro t ht1 ht2
  rw [mem_firstCard] at ht1
  rw [mem_pencilCard] at ht2
  rcases ht2 with h | ⟨j, _, rfl⟩
  · exact h
  · have := block_symbol_ge m i j
    omega

theorem oneCommon_first_grid (m i j : Nat) (hm : 1 ≤ m) (hi : i < m) :
    OneCommon (firstCard (m : Int)) (gridCard (m : Int) i j) := by
  unfold OneCommon
  rw [countCommonSymbols_eq_one_iff _ _ (nodup_firstCard _) (nodup_gridCard m i j hm hi)]
  refine ⟨(i : Int) + 2, (mem_firstCard m _).2 ⟨by omega, by omega⟩,
    (mem_gridCard m i j _).2 (Or.inl rfl), ?_⟩
  intro t ht1 ht2
  rw [mem_firstCard] at ht1
  rw [mem_gridCard] at ht2
  rcases ht2 with h | ⟨k, _, rfl⟩
  · exact h
  · have := block_symbol_ge m k ((i * k + j) % m)
    omega

theorem oneCommon_pencil_pencil (m i i2 : Nat) (h : i ≠ i2) :
    OneCommon (pencilCard (m : Int) i) (pencilCard (m : Int) i2) := by
  unfold OneCommon
  rw [countCommonSymbols_eq_one_iff _ _ (nodup_pencilCard m i) (nodup_pencilCard m i2)]
  refine ⟨1, (mem_pencilCard m i 1).2 (Or.inl rfl), (mem_pencilCard m i2 1).2 (Or.inl rfl), ?_⟩
  intro t ht1 ht2
  rw [mem_pencilCard] at ht1 ht2
  rcases ht1 with h1 | ⟨j, hj, rfl⟩
  · exact h1
  · rcases ht2 with h2 | ⟨j2, hj2, h2⟩
    · exact h2
    · exact absurd (block_symbol_inj m i j i2 j2 hj hj2 h2).1 h

theorem oneCommon_pencil_grid (m i i2 j2 : Nat) (hm : 1 ≤ m) (hi : i < m) (hi2 : i2 < m) :
    OneCommon (pencilCard (m : Int) i) (gridCard (m : Int) i2 j2) := by
  unfold OneCommon
  rw [countCommonSymbols_eq_one_iff _ _ (nodup_pencilCard m i) (nodup_gridCard m i2 j2 hm hi2)]
  have hr : (i2 * i + j2) % m < m := Nat.mod_lt _ (by omega)
  refine ⟨(m : Int) + 1 + (i : Int) * (m : Int) + (((i2 * i + j2) % m : Nat) : Int) + 1,
    (mem_pencilCard m i _).2 (Or.inr ⟨_, hr, rfl⟩),
    (mem_gridCard m i2 j2 _).2 (Or.inr ⟨i, hi, rfl⟩), ?_⟩
  intro t ht1 ht2
  rw [mem_pencilCard] at ht1
  rw [mem_gridCard] at ht2
  rcases ht1 with h1 | ⟨j, hj, rfl⟩
  · rcases ht2 with h2 | ⟨k, _, h2⟩
    · omega
    · have := block_symbol_ge m k ((i2 * k + j2) % m)
      omega
  · rcases ht2 with h2 | ⟨k, _, h2⟩
    · have := block_symbol_ge m i j
      omega
    · have hkr := block_symbol_inj m i j k ((i2 * k + j2) % m) hj (Nat.mod_lt _ (by omega)) h2
      obtain ⟨rfl, rfl⟩ := hkr
      rfl

theorem oneCommon_grid_grid_same (m i j j2 : Nat) (hm : 1 ≤ m) (hi : i < m)
    (hj : j < m) (hj2 : j2 < m) (h : j ≠ j2) :
    OneCommon (gridCard (m : Int) i j) (gridCard (m : Int) i j2) := by
  unfold OneCommon
  rw [countCommonSymbols_eq_one_iff _ _ (nodup_gridCard m i j hm hi)
    (nodup_gridCard m i j2 hm hi)]
  refine ⟨(i : Int) + 2, (mem_gridCard m i j _).2 (Or.inl rfl),
    (mem_gridCard m i j2 _).2 (Or.inl rfl), ?_⟩
  intro t ht1 ht2
  rw [mem_gridCard] at ht1 ht2
  rcases ht1 with h1 | ⟨k, hk, rfl⟩
  · exact h1
  · rcases ht2 with h2 | ⟨k2, hk2, h2⟩
    · exact h2
    · exfalso
      obtain ⟨rfl, hrr⟩ := block_symbol_inj m k _ k2 _ (Nat.mod_lt _ (by omega))
        (Nat.mod_lt _ (by omega)) h2
      have hmod : j ≡ j2 [MOD m] := Nat.ModEq.add_left_cancel' (i * k) hrr
      apply h
      have := Nat.ModEq.eq_of_lt_of_lt hmod hj hj2
      exact this

/-- For a prime order, two grid rows with different slopes `i ≠ i2` agree in
exactly one column `k`. -/
theorem grid_rows_meet_once (m i i2 j j2 : Nat) (hp : m.Prime) (hi : i < m) (hi2 : i2 < m)
    (h : i ≠ i2) :
    ∃ k, k < m ∧ (i * k + j) % m = (i2 * k + j2) % m ∧
      ∀ k2, k2 < m → (i * k2 + j) % m = (i2 * k2 + j2) % m → k2 = k := by
  haveI : Fact m.Prime := ⟨hp⟩
  have hd : ((i : ZMod m) - (i2 : ZMod m)) ≠ 0 := by
    intro h0
    have h1 : (i : ZMod m) = (i2 : ZMod m) := sub_eq_zero.1 h0
    rw [ZMod.natCast_eq_natCast_iff', Nat.mod_eq_of_lt hi, Nat.mod_eq_of_lt hi2] at h1
    exact h h1
  have key : ∀ k : Nat, (i * k + j) % m = (i2 * k + j2) % m ↔
      (k : ZMod m) = ((j2 : ZMod m) - (j : ZMod m)) * ((i : ZMod m) - (i2 : ZMod m))⁻¹ := by
    intro k
    rw [← ZMod.natCast_eq_natCast_iff']
    push_cast
    constructor
    · intro hk
      have h2 : ((i : ZMod m) - (i2 : ZMod m)) * (k : ZMod m) = (j2 : ZMod m) - (j : ZMod m) := by
        linear_combination hk
      rw [← h2, mul_comm (((i : ZMod m) - (i2 : ZMod m)) * (k : ZMod m)), ← mul_assoc,
        inv_mul_cancel₀ hd, one_mul]
    · intro hk
      have h2 : ((i : ZMod m) - (i2 : ZMod m)) * (k : ZMod m) = (j2 : ZMod m) - (j : ZMod m) := by
        rw [hk, mul_comm ((j2 : ZMod m) - (j : ZMod m)), ← mul_assoc, mul_inv_cancel₀ hd, one_mul]
      linear_combination h2
  refine ⟨(((j2 : ZMod m) - (j : ZMod m)) * ((i : ZMod m) - (i2 : ZMod m))⁻¹).val,
    ZMod.val_lt _, ?_, ?_⟩
  · rw [key, ZMod.natCast_zmod_val]
  · intro k2 hk2 hk
    rw [key] at hk
    have h3 : (k2 : ZMod m).val
        = (((j2 : ZMod m) - (j : ZMod m)) * ((i : ZMod m) - (i2 : ZMod m))⁻¹).val := by
      rw [hk]
    rwa [ZMod.val_cast_of_lt hk2] at h3

theorem oneCommon_grid_grid_prime (m i i2 j j2 : Nat) (hp : m.Prime) (hi : i < m)
    (hi2 : i2 < m) (h : i ≠ i2) :
    OneCommon (gridCard (m : Int) i j) (gridCard (m : Int) i2 j2) := by
  have hm : 1 ≤ m := hp.one_lt.le
  unfold OneCommon
  rw [countCommonSymbols_eq_one_iff _ _ (nodup_gridCard m i j hm hi)
    (nodup_gridCard m i2 j2 hm hi2)]
  obtain ⟨k, hk, hkeq, hkuniq⟩ := grid_rows_meet_once m i i2 j j2 hp hi hi2 h
  refine ⟨(m : Int) + 1 + (k : Int) * (m : Int) + (((i * k + j) % m : Nat) : Int) + 1,
    (mem_gridCard m i j _).2 (Or.inr ⟨k, hk, rfl⟩),
    (mem_gridCard m i2 j2 _).2 (Or.inr ⟨k, hk, by rw [hkeq]⟩), ?_⟩
  intro t ht1 ht2
  rw [mem_gridCard] at ht1 ht2
  rcases ht1 with h1 | ⟨k1, hk1, rfl⟩
  · rcases ht2 with h2 | ⟨k2, _, h2⟩
    · omega
    · have := block_symbol_ge m k2 ((i2 * k2 + j2) % m)
      omega
  · rcases ht2 with h2 | ⟨k2, _, h2⟩
    · have := block_symbol_ge m k1 ((i * k1 + j) % m)
      omega
    · obtain ⟨rfl, hrr⟩ := block_symbol_inj m k1 _ k2 _ (Nat.mod_lt _ (by omega))
        (Nat.mod_lt _ (by omega)) h2
      have := hkuniq k1 hk1 hrr
      subst this
      rfl

/-- For a composite order `m = a * b` the grid cards `(0, 0)` and `(a, 0)`
have at least the two common symbols of the columns `0` and `b`. -/
theorem not_oneCommon_grid_composite (m a b : Nat) (ha : 2 ≤ a) (hb : 2 ≤ b)
    (hab : a * b = m) :
    ¬ OneCommon (gridCard (m : Int) 0 0) (gridCard (m : Int) a 0) := by
  have ham : a < m := by nlinarith
  have hbm : b < m := by nlinarith
  have hm : 1 ≤ m := by omega
  unfold OneCommon
  rw [countCommonSymbols_eq_one_iff _ _ (nodup_gridCard m 0 0 hm (by omega))
    (nodup_gridCard m a 0 hm ham)]
  rintro ⟨s, _, _, huniq⟩
  have h0 : (m : Int) + 1 + ((0 : Nat) : Int) * (m : Int) + (((0 * 0 + 0) % m : Nat) : Int) + 1 = s := by
    apply huniq
    · exact (mem_gridCard m 0 0 _).2 (Or.inr ⟨0, by omega, rfl⟩)
    · exact (mem_gridCard m a 0 _).2 (Or.inr ⟨0, by omega, by simp⟩)
  have h1 : (m : Int) + 1 + (b : Int) * (m : Int) + (((0 * b + 0) % m : Nat) : Int) + 1 = s := by
    apply huniq
    · exact (mem_gridCard m 0 0 _).2 (Or.inr ⟨b, hbm, rfl⟩)
    · refine (mem_gridCard m a 0 _).2 (Or.inr ⟨b, hbm, ?_⟩)
      rw [hab]
      simp
  have hpos : 0 < (b : Int) * (m : Int) := by positivity
  simp at h0 h1
  omega

/-! ## Validity of the raw deck -/

theorem oneCommon_symm : Symmetric OneCommon := by
  intro a b hab
  unfold OneCommon at *
  rw [countCommonSymbols_swap]
  exact hab

/-- For order 1 or a prime order the generated deck is pairwise one-common. -/
theorem pairwise_generated_of_prime (m : Nat) (hm : 1 ≤ m) (hp : m = 1 ∨ m.Prime) :
    (firstCard (m : Int) :: ((List.range m).map (pencilCard (m : Int)) ++
      (List.range m).flatMap
        (fun i => (List.range m).map (gridCard (m : Int) i)))).Pairwise OneCommon := by
  rw [List.pairwise_cons, List.pairwise_append, List.pairwise_map, List.pairwise_flatMap]
  refine ⟨?_, ?_, ⟨?_, ?_⟩, ?_⟩
  · intro c hc
    simp only [List.mem_append, List.mem_map, List.mem_flatMap, List.mem_range] at hc
    rcases hc with ⟨i, _, rfl⟩ | ⟨i, hi, j, _, rfl⟩
    · exact oneCommon_first_pencil m i
    · exact oneCommon_first_grid m i j hm hi
  · refine (List.pairwise_lt_range m).imp ?_
    intro a b hab
    exact oneCommon_pencil_pencil m a b (by omega)
  · intro i hi
    rw [List.mem_range] at hi
    rw [List.pairwise_map]
    refine (List.pairwise_lt_range m).imp_of_mem ?_
    intro a b ha hb hab
    rw [List.mem_range] at ha hb
    exact oneCommon_grid_grid_same m i a b hm hi ha hb (by omega)
  · refine (List.pairwise_lt_range m).imp_of_mem ?_
    intro a b ha hb hab x hx y hy
    rw [List.mem_range] at ha hb
    simp only [List.mem_map, List.mem_range] at hx hy
    obtain ⟨j, _, rfl⟩ := hx
    obtain ⟨j2, _, rfl⟩ := hy
    rcases hp with h1 | hprime
    · omega
    · exact oneCommon_grid_grid_prime m a b j j2 hprime ha hb (by omega)
  · intro x hx y hy
    simp only [List.mem_map, List.mem_flatMap, List.mem_range] at hx hy
    obtain ⟨i, hi, rfl⟩ := hx
    obtain ⟨i2, hi2, j2, _, rfl⟩ := hy
    exact oneCommon_pencil_grid m i i2 j2 hm hi hi2

/-- For a composite order the generated deck is not pairwise one-common. -/
theorem not_pairwise_generated_of_composite (m : Nat) (hm : 2 ≤ m) (hnp : ¬ m.Prime) :
    ¬ (firstCard (m : Int) :: ((List.range m).map (pencilCard (m : Int)) ++
      (List.range m).flatMap
        (fun i => (List.range m).map (gridCard (m : Int) i)))).Pairwise OneCommon := by
  intro hpw
  obtain ⟨a, hdvd, ha2, ham⟩ := (Nat.not_prime_iff_exists_dvd_lt hm).1 hnp
  have hab : a * (m / a) = m := Nat.mul_div_cancel' hdvd
  have hb2 : 2 ≤ m / a := by
    by_contra hlt
    have hle : m / a ≤ 1 := by omega
    have : a * (m / a) ≤ a * 1 := Nat.mul_le_mul_left a hle
    omega
  apply not_oneCommon_grid_composite m a (m / a) ha2 hb2 hab
  apply hpw.forall oneCommon_symm
  · simp only [List.mem_cons, List.mem_append, List.mem_map, List.mem_flatMap, List.mem_range]
    exact Or.inr (Or.inr ⟨0, by omega, 0, by omega, rfl⟩)
  · simp only [List.mem_cons, List.mem_append, List.mem_map, List.mem_flatMap, List.mem_range]
    exact Or.inr (Or.inr ⟨a, ham, 0, by omega, rfl⟩)
  · intro heq
    unfold gridCard at heq
    have hhead := (List.cons.inj heq).1
    omega

/-- The validator accepts the generated deck exactly for order 1 and prime
orders. -/
theorem validateCards_generated_iff (m : Nat) (hm : 1 ≤ m) (y : Int) (hy : y - 1 = (m : Int)) :
    validateCards (generateDobbleByY y) = true ↔ (m = 1 ∨ m.Prime) := by
  rw [validateCards_iff_pairwise, generateDobbleByY_eq, hy, Int.toNat_ofNat]
  constructor
  · intro hpw
    by_contra hno
    push_neg at hno
    exact not_pairwise_generated_of_composite m (by omega) hno.2 hpw
  · exact pairwise_generated_of_prime m hm

/-- C19: for every `symbolsPerCard ≥ 2`, with `n = symbolsPerCard - 1`, the
validator accepts the raw deck of `generateDobbleByY` if and only if `n = 1`
or `n` is a prime number; in the supported range `[2, 15]` the raw deck is
valid exactly for `symbolsPerCard` in `{2, 3, 4, 6, 8, 12, 14}`. -/
theorem validateCards_generateDobbleByY_iff_prime (symbolsPerCard : Int)
    (h : 2 ≤ symbolsPerCard) :
    (validateCards (generateDobbleByY symbolsPerCard) = true ↔
      (symbolsPerCard - 1 = 1 ∨ Nat.Prime (symbolsPerCard - 1).toNat)) ∧
    (symbolsPerCard ≤ 15 →
      (validateCards (generateDobbleByY symbolsPerCard) = true ↔
        symbolsPerCard ∈ ([2, 3, 4, 6, 8, 12, 14] : List Int))) := by
  obtain ⟨m, hm1, hm, hmn⟩ := order_eq_natCast symbolsPerCard h
  have hiff := validateCards_generated_iff m hm1 symbolsPerCard hm
  constructor
  · rw [hiff, hmn, hm]
    constructor
    · rintro (h1 | hp)
      · left
        exact_mod_cast h1
      · exact Or.inr hp
    · rintro (h1 | hp)
      · left
        exact_mod_cast h1
      · exact Or.inr hp
  · intro h15
    rw [hiff]
    have hm14 : m ≤ 14 := by omega
    have hy : symbolsPerCard = (m : Int) + 1 := by omega
    subst hy
    interval_cases m <;> simp <;> norm_num

/-- Witness of C19 at `symbolsPerCard = 6` (`n = 5`, a prime). -/
theorem validateCards_generateDobbleByY_iff_prime_witness :
    (2 : Int) ≤ 6 ∧
    ((validateCards (generateDobbleByY 6) = true ↔
      ((6 : Int) - 1 = 1 ∨ Nat.Prime ((6 : Int) - 1).toNat)) ∧
    ((6 : Int) ≤ 15 →
      (validateCards (generateDobbleByY 6) = true ↔
        (6 : Int) ∈ ([2, 3, 4, 6, 8, 12, 14] : List Int)))) :=
  ⟨by decide, validateCards_generateDobbleByY_iff_prime 6 (by decide)⟩

/-! ## How often a symbol occurs -/

theorem countP_flatMap_eq_sum {α β : Type} (p : β → Bool) (f : α → List β) (l : List α) :
    (l.flatMap f).countP p = (l.map (fun a => (f a).countP p)).sum := by
  induction l with
  | nil => rfl
  | cons a l ih => simp [List.flatMap_cons, ih]

/-- A test that holds at exactly one index below `m` is counted once. -/
theorem countP_range_unique (m : Nat) (q : Nat → Bool) (j0 : Nat) (hj0 : j0 < m)
    (h : ∀ j, j < m → (q j = true ↔ j = j0)) : (List.range m).countP q = 1 := by
  have hcongr : (List.range m).countP q = (List.range m).countP (fun j => j == j0) := by
    apply List.countP_congr
    intro j hj
    rw [List.mem_range] at hj
    rw [h j hj]
    simp
  rw [hcongr]
  exact List.count_eq_one_of_mem (List.nodup_range m) (List.mem_range.2 hj0)

theorem countP_range_none (m : Nat) (q : Nat → Bool)
    (h : ∀ j, j < m → q j = false) : (List.range m).countP q = 0 := by
  rw [List.countP_eq_zero]
  intro j hj
  rw [List.mem_range] at hj
  simp [h j hj]

theorem countP_range_all (m : Nat) (q : Nat → Bool)
    (h : ∀ j, j < m → q j = true) : (List.range m).countP q = m := by
  have : (List.range m).countP q = (List.range m).length := by
    rw [List.countP_eq_length]
    intro j hj
    exact h j (List.mem_range.1 hj)
  rw [this, List.length_range]

theorem sum_map_range_const (m c : Nat) (f : Nat → Nat) (h : ∀ i, i < m → f i = c) :
    ((List.range m).map f).sum = m * c := by
  have hmap : (List.range m).map f = (List.range m).map (fun _ => c) := by
    apply List.map_congr_left
    intro i hi
    exact h i (List.mem_range.1 hi)
  rw [hmap]
  simp

theorem sum_map_range_single (m c i0 : Nat) (f : Nat → Nat) (hi0 : i0 < m)
    (h0 : f i0 = c) (h : ∀ i, i < m → i ≠ i0 → f i = 0) :
    ((List.range m).map f).sum = c := by
  rw [List.sum_map_eq_nsmul_single i0 f (fun i hne hi => h i (List.mem_range.1 hi) hne),
    List.count_eq_one_of_mem (List.nodup_range m) (List.mem_range.2 hi0), h0]
  simp

/-- For every offset `a` and remainder `r < m` exactly one `j < m` has
`(a + j) mod m = r`. -/
theorem exists_unique_shift (m a r : Nat) (hm : 1 ≤ m) (hr : r < m) :
    ∃ j0, j0 < m ∧ ∀ j, j < m → ((a + j) % m = r ↔ j = j0) := by
  haveI : NeZero m := ⟨by omega⟩
  refine ⟨((r : ZMod m) - (a : ZMod m)).val, ZMod.val_lt _, ?_⟩
  intro j hj
  have hrm : r = r % m := (Nat.mod_eq_of_lt hr).symm
  constructor
  · intro h
    have h2 : ((a + j : Nat) : ZMod m) = (r : ZMod m) := by
      rw [ZMod.natCast_eq_natCast_iff', h, ← hrm]
    push_cast at h2
    have h3 : (j : ZMod m) = (r : ZMod m) - (a : ZMod m) := by
      rw [← h2]
      ring
    rw [← h3, ZMod.val_cast_of_lt hj]
  · intro h
    have h3 : (j : ZMod m) = (r : ZMod m) - (a : ZMod m) := by
      rw [h, ZMod.natCast_zmod_val]
    have h2 : ((a + j : Nat) : ZMod m) = (r : ZMod m) := by
      push_cast
      rw [h3]
      ring
    rw [ZMod.natCast_eq_natCast_iff', ← hrm] at h2
    exact h2

/-- A symbol above `m + 1` is a block symbol in exactly one way. -/
theorem symbol_decompose (m : Nat) (s : Int) (hm : 1 ≤ m) (h1 : (m : Int) + 2 ≤ s)
    (h2 : s ≤ (m : Int) ^ 2 + (m : Int) + 1) :
    ∃ k r : Nat, k < m ∧ r < m ∧
      s = (m : Int) + 1 + (k : Int) * (m : Int) + (r : Int) + 1 := by
  have hsq : (m : Int) ^ 2 = ((m * m : Nat) : Int) := by
    push_cast
    ring
  have ht : ((s - ((m : Int) + 2)).toNat : Int) = s - ((m : Int) + 2) :=
    Int.toNat_of_nonneg (by omega)
  have hlt : (s - ((m : Int) + 2)).toNat < m * m := by
    have : ((s - ((m : Int) + 2)).toNat : Int) < ((m * m : Nat) : Int) := by omega
    exact_mod_cast this
  refine ⟨(s - ((m : Int) + 2)).toNat / m, (s - ((m : Int) + 2)).toNat % m,
    Nat.div_lt_of_lt_mul hlt, Nat.mod_lt _ (by omega), ?_⟩
  have hdm : (((m * ((s - ((m : Int) + 2)).toNat / m) + (s - ((m : Int) + 2)).toNat % m : Nat)) : Int)
      = ((s - ((m : Int) + 2)).toNat : Int) := by
    rw [Nat.div_add_mod]
  push_cast at hdm
  rw [mul_comm] at hdm
  push_cast
  omega

/-- The number of pencil cards carrying `s`. -/
theorem countP_pencils (m : Nat) (s : Int) (c : Nat)
    (h : (List.range m).countP (fun i => decide (s ∈ pencilCard (m : Int) i)) = c) :
    ((List.range m).map (pencilCard (m : Int))).countP (fun card => decide (s ∈ card)) = c := by
  rw [List.countP_map]
  exact h

/-- The number of grid cards carrying `s`, row by row. -/
theorem countP_grids (m : Nat) (s : Int) :
    ((List.range m).flatMap
        (fun i => (List.range m).map (gridCard (m : Int) i))).countP
          (fun card => decide (s ∈ card))
      = ((List.range m).map (fun i =>
          (List.range m).countP (fun j => decide (s ∈ gridCard (m : Int) i j)))).sum := by
  rw [countP_flatMap_eq_sum]
  congr 1
  apply List.map_congr_left
  intro i _
  rw [List.countP_map]
  rfl

/-- Every symbol of the universe lies on exactly `m + 1` generated cards. -/
theorem occurrences_generated (m : Nat) (hm : 1 ≤ m) (s : Int) (hs1 : 1 ≤ s)
    (hs2 : s ≤ (m : Int) ^ 2 + (m : Int) + 1) :
    (firstCard (m : Int) :: ((List.range m).map (pencilCard (m : Int)) ++
      (List.range m).flatMap
        (fun i => (List.range m).map (gridCard (m : Int) i)))).countP
          (fun card => decide (s ∈ card)) = m + 1 := by
  rw [List.countP_cons, List.countP_append, countP_grids]
  by_cases hA : s = 1
  · -- the shared anchor: base card and every pencil card
    subst hA
    have hfirst : decide ((1 : Int) ∈ firstCard (m : Int)) = true :=
      decide_eq_true ((mem_firstCard m 1).2 ⟨le_refl _, by omega⟩)
    have hpen := countP_pencils m 1 m (countP_range_all m _ (fun i _ =>
      decide_eq_true ((mem_pencilCard m i 1).2 (Or.inl rfl))))
    have hgrid : ((List.range m).map (fun i =>
        (List.range m).countP (fun j => decide ((1 : Int) ∈ gridCard (m : Int) i j)))).sum
          = m * 0 := by
      apply sum_map_range_const
      intro i _
      apply countP_range_none
      intro j _
      apply decide_eq_false
      rw [mem_gridCard]
      rintro (h | ⟨k, _, h⟩)
      · omega
      · have := block_symbol_ge m k ((i * k + j) % m)
        omega
    rw [hfirst, hpen, hgrid]
    simp
  · by_cases hB : s ≤ (m : Int) + 1
    · -- an anchor of a grid row: base card and the `m` cards of row `s - 2`
      have hfirst : decide (s ∈ firstCard (m : Int)) = true :=
        decide_eq_true ((mem_firstCard m s).2 ⟨hs1, hB⟩)
      have hpen := countP_pencils m s 0 (countP_range_none m _ (fun i _ => by
        apply decide_eq_false
        rw [mem_pencilCard]
        rintro (h | ⟨j, _, h⟩)
        · exact hA h
        · have := block_symbol_ge m i j
          omega))
      have hgrid : ((List.range m).map (fun i =>
          (List.range m).countP (fun j => decide (s ∈ gridCard (m : Int) i j)))).sum = m := by
        apply sum_map_range_single m m (s - 2).toNat _ (by omega)
        · apply countP_range_all
          intro j _
          apply decide_eq_true
          rw [mem_gridCard]
          left
          omega
        · intro i _ hne
          apply countP_range_none
          intro j _
          apply decide_eq_false
          rw [mem_gridCard]
          rintro (h | ⟨k, _, h⟩)
          · omega
          · have := block_symbol_ge m k ((i * k + j) % m)
            omega
      rw [hfirst, hpen, hgrid]
      simp
    · -- a block symbol: one pencil card and one card of every grid row
      obtain ⟨k0, r0, hk0, hr0, hs⟩ := symbol_decompose m s hm (by omega) hs2
      have hfirst : decide (s ∈ firstCard (m : Int)) = false := by
        apply decide_eq_false
        rw [mem_firstCard]
        omega
      have hpen := countP_pencils m s 1 (countP_range_unique m _ k0 hk0 (fun i _ => by
        rw [decide_eq_true_iff, mem_pencilCard]
        constructor
        · rintro (h | ⟨j, hj, h⟩)
          · exact absurd h hA
          · rw [hs] at h
            exact (block_symbol_inj m k0 r0 i j hr0 hj h).1.symm
        · rintro rfl
          exact Or.inr ⟨r0, hr0, hs⟩))
      have hgrid : ((List.range m).map (fun i =>
          (List.range m).countP (fun j => decide (s ∈ gridCard (m : Int) i j)))).sum
            = m * 1 := by
        apply sum_map_range_const
        intro i hi
        obtain ⟨j0, hj0, hj0iff⟩ := exists_unique_shift m (i * k0) r0 hm hr0
        apply countP_range_unique m _ j0 hj0
        intro j hj
        rw [decide_eq_true_iff, mem_gridCard, ← hj0iff j hj]
        constructor
        · rintro (h | ⟨k, hk, h⟩)
          · omega
          · rw [hs] at h
            obtain ⟨rfl, hr⟩ := block_symbol_inj m k0 r0 k _ hr0 (Nat.mod_lt _ (by omega)) h
            exact hr.symm
        · intro h
          exact Or.inr ⟨k0, hk0, by rw [h]; exact hs⟩
      rw [hfirst, hpen, hgrid]
      simp
      omega

/-- C20: for every `symbolsPerCard ≥ 2`, with `n = symbolsPerCard - 1`, every
symbol `s` with `1 ≤ s ≤ n^2 + n + 1` occurs on exactly `n + 1` cards of
`generateDobbleByY symbolsPerCard`. -/
theorem generateDobbleByY_symbol_occurrences (symbolsPerCard : Int) (h : 2 ≤ symbolsPerCard)
    (s : Int) (hs1 : 1 ≤ s)
    (hs2 : s ≤ (symbolsPerCard - 1) ^ 2 + (symbolsPerCard - 1) + 1) :
    (((generateDobbleByY symbolsPerCard).countP (fun card => decide (s ∈ card)) : Nat) : Int)
      = (symbolsPerCard - 1) + 1 := by
  obtain ⟨m, hm1, hm, hmn⟩ := order_eq_natCast symbolsPerCard h
  rw [generateDobbleByY_eq, hm, Int.toNat_ofNat]
  rw [hm] at hs2
  rw [occurrences_generated m hm1 s hs1 hs2]
  push_cast
  rfl

/-- Witness of C20: symbol 7 lies on 3 of the 7 cards for `symbolsPerCard = 3`. -/
theorem generateDobbleByY_symbol_occurrences_witness :
    (2 : Int) ≤ 3 ∧ (1 : Int) ≤ 7 ∧ (7 : Int) ≤ (3 - 1) ^ 2 + (3 - 1) + 1 ∧
      (((generateDobbleByY 3).countP (fun card => decide ((7 : Int) ∈ card)) : Nat) : Int)
        = (3 - 1) + 1 :=
  ⟨by decide, by decide, by decide,
    generateDobbleByY_symbol_occurrences 3 (by decide) 7 (by decide) (by decide)⟩

end Doable
